import Mathlib

/-!
Shallow embedding of the metric primitives of `src/Formeln.py` (module
`Formeln`), the formula layer of a fund-analytics project.

Modelling conventions:
* a monthly return observation is an `Option ℚ`: `none` stands for numpy's
  NaN (a missing value), `some r` for the return `r` as a decimal fraction;
* numpy float arithmetic on non-degenerate inputs is modelled by exact
  rational arithmetic; a NaN result of a primitive is `none`;
* `np.sqrt` and the fractional power in `annualized_return` force a real
  codomain; those primitives return `Option ℝ`.
-/

namespace Formeln

/-- A monthly return observation; `none` models numpy NaN (a missing value). -/
abbrev Ret := Option ℚ

/-- `returns[~np.isnan(returns)]`: the non-missing values, in order. -/
def dropNan (rs : List Ret) : List ℚ := rs.filterMap id

/-- `np.mean` of a list of rationals (callers guard against the empty list). -/
def mean (l : List ℚ) : ℚ := l.sum / l.length

/-- `np.var(l, ddof=1)`: sum of squared deviations from the mean over `n - 1`
(callers guard `n ≥ 2`; numpy emits NaN itself for smaller samples). -/
def sampleVar (l : List ℚ) : ℚ :=
  ((l.map fun x => (x - mean l) ^ 2).sum) / ((l.length : ℚ) - 1)

/-- `np.cov(x, y, ddof=1)[0, 1]` over paired observations: sum of products of
deviations over `n - 1` (callers guard `n ≥ 2`). -/
def sampleCov (l : List (ℚ × ℚ)) : ℚ :=
  ((l.map fun p =>
      (p.1 - mean (l.map Prod.fst)) * (p.2 - mean (l.map Prod.snd))).sum) /
    ((l.length : ℚ) - 1)

/-! ### omega_ratio (src/Formeln.py lines 113-138) -/

/-- `np.sum(np.maximum(returns - threshold, 0))` over the non-missing returns. -/
def omegaGains (rs : List Ret) (threshold : ℚ) : ℚ :=
  ((dropNan rs).map fun r => max (r - threshold) 0).sum

/-- `np.sum(np.maximum(threshold - returns, 0))` over the non-missing returns. -/
def omegaLosses (rs : List Ret) (threshold : ℚ) : ℚ :=
  ((dropNan rs).map fun r => max (threshold - r) 0).sum

/-- `omega_ratio`: NaN on an empty usable sample, the finite sentinel `1000`
when the loss sum is exactly zero, otherwise gains over losses. -/
def omega_ratio (rs : List Ret) (threshold : ℚ) : Option ℚ :=
  if dropNan rs = [] then none
  else if omegaLosses rs threshold = 0 then some 1000
  else some (omegaGains rs threshold / omegaLosses rs threshold)

/-! ### Facts about the omega sums -/

theorem omegaGains_nonneg (rs : List Ret) (t : ℚ) : 0 ≤ omegaGains rs t :=
  List.sum_nonneg fun x hx => by
    obtain ⟨r, -, rfl⟩ := List.mem_map.1 hx
    exact le_max_right _ _

theorem omegaLosses_nonneg (rs : List Ret) (t : ℚ) : 0 ≤ omegaLosses rs t :=
  List.sum_nonneg fun x hx => by
    obtain ⟨r, -, rfl⟩ := List.mem_map.1 hx
    exact le_max_right _ _

theorem omegaGains_antitone (rs : List Ret) {t1 t2 : ℚ} (h : t1 ≤ t2) :
    omegaGains rs t2 ≤ omegaGains rs t1 :=
  List.sum_le_sum fun r _ =>
    max_le_max (sub_le_sub_left h r) le_rfl

theorem omegaLosses_monotone (rs : List Ret) {t1 t2 : ℚ} (h : t1 ≤ t2) :
    omegaLosses rs t1 ≤ omegaLosses rs t2 :=
  List.sum_le_sum fun r _ =>
    max_le_max (sub_le_sub_right h r) le_rfl

/-- C1, the statement the code violates, at a concrete input: with returns
`[2, 0]`, the threshold `0` hits the zero-loss sentinel `1000`, while the
larger threshold `1/1000` yields the finite ratio `1999 > 1000`, so Omega is
not monotonically non-decreasing as the threshold decreases. -/
theorem omega_ratio_monotone_counterexample :
    omega_ratio [some 2, some 0] 0 = some 1000 ∧
    omega_ratio [some 2, some 0] (1 / 1000) = some 1999 ∧
    ¬ (1999 : ℚ) ≤ 1000 := by
  norm_num [omega_ratio, omegaGains, omegaLosses, dropNan, max_def,
    List.filterMap_cons, List.filterMap_nil]
  exact ⟨fun h => by simp at h, fun h => by simp at h⟩

/-- C1 (amended): for a series with at least one non-missing value and
thresholds `t1 ≤ t2`, as long as the loss sum at `t1` is nonzero or the loss
sum at `t2` is zero (that is, excluding the one case where `t1` triggers the
zero-loss sentinel while `t2` yields a finite ratio), both Omega values are
defined and the value at `t1` is at least the value at `t2`. -/
theorem omega_ratio_threshold_antitone (rs : List Ret) (t1 t2 : ℚ)
    (hle : t1 ≤ t2) (hne : dropNan rs ≠ [])
    (hsent : omegaLosses rs t1 ≠ 0 ∨ omegaLosses rs t2 = 0) :
    ∃ a b : ℚ, omega_ratio rs t1 = some a ∧ omega_ratio rs t2 = some b ∧
      b ≤ a := by
  by_cases h2 : omegaLosses rs t2 = 0
  · have h1 : omegaLosses rs t1 = 0 :=
      le_antisymm ((omegaLosses_monotone rs hle).trans h2.le)
        (omegaLosses_nonneg rs t1)
    exact ⟨1000, 1000, by simp [omega_ratio, hne, h1],
      by simp [omega_ratio, hne, h2], le_rfl⟩
  · have h1 : omegaLosses rs t1 ≠ 0 := hsent.resolve_right h2
    have hp1 : 0 < omegaLosses rs t1 :=
      lt_of_le_of_ne (omegaLosses_nonneg rs t1) (Ne.symm h1)
    have hp2 : 0 < omegaLosses rs t2 :=
      lt_of_le_of_ne (omegaLosses_nonneg rs t2) (Ne.symm h2)
    refine ⟨omegaGains rs t1 / omegaLosses rs t1,
      omegaGains rs t2 / omegaLosses rs t2,
      by simp [omega_ratio, hne, h1], by simp [omega_ratio, hne, h2], ?_⟩
    rw [div_le_div_iff₀ hp2 hp1]
    calc omegaGains rs t2 * omegaLosses rs t1
        ≤ omegaGains rs t1 * omegaLosses rs t1 :=
          mul_le_mul_of_nonneg_right (omegaGains_antitone rs hle) hp1.le
      _ ≤ omegaGains rs t1 * omegaLosses rs t2 :=
          mul_le_mul_of_nonneg_left (omegaLosses_monotone rs hle)
            (omegaGains_nonneg rs t1)

/-- Witness for C1's amended theorem at returns `[1, -1]`, `t1 = 0`,
`t2 = 1/2`. -/
theorem omega_ratio_threshold_antitone_witness :
    ∃ a b : ℚ, omega_ratio [some 1, some (-1)] 0 = some a ∧
      omega_ratio [some 1, some (-1)] (1 / 2) = some b ∧ b ≤ a :=
  omega_ratio_threshold_antitone [some 1, some (-1)] 0 (1 / 2)
    (by norm_num) (by simp [dropNan])
    (Or.inl (by norm_num [omegaLosses, dropNan, max_def, List.filterMap_cons, List.filterMap_nil]))

/-- C9, the statement the code violates, at a concrete input: `[NaN]` is a
non-empty series all of whose non-missing values (there are none) equal the
threshold, yet `omega_ratio` returns NaN, not the sentinel. -/
theorem omega_ratio_sentinel_counterexample :
    ([none] : List Ret) ≠ [] ∧ omega_ratio [none] 0 = none := by
  simp [omega_ratio, dropNan]

/-- C9 (amended): for a series with at least one non-missing value, all of
whose non-missing values equal the threshold exactly (so the gain sum and the
loss sum are both zero), `omega_ratio` returns the sentinel `1000`, not the
undefined marker. -/
theorem omega_ratio_sentinel_precedence (rs : List Ret) (t : ℚ)
    (hne : dropNan rs ≠ []) (hall : ∀ x ∈ dropNan rs, x = t) :
    omegaGains rs t = 0 ∧ omegaLosses rs t = 0 ∧
      omega_ratio rs t = some 1000 := by
  have hg : omegaGains rs t = 0 :=
    List.sum_eq_zero fun x hx => by
      obtain ⟨r, hr, rfl⟩ := List.mem_map.1 hx
      simp [hall r hr]
  have hl : omegaLosses rs t = 0 :=
    List.sum_eq_zero fun x hx => by
      obtain ⟨r, hr, rfl⟩ := List.mem_map.1 hx
      simp [hall r hr]
  exact ⟨hg, hl, by simp [omega_ratio, hne, hl]⟩

/-- Witness for C9's amended theorem at the series `[5]` with threshold `5`. -/
theorem omega_ratio_sentinel_precedence_witness :
    omegaGains [some 5] 5 = 0 ∧ omegaLosses [some 5] 5 = 0 ∧
      omega_ratio [some 5] 5 = some 1000 :=
  omega_ratio_sentinel_precedence [some 5] 5 (by simp [dropNan])
    (by simp [dropNan])

/-! ### maximum_drawdown (src/Formeln.py lines 53-78) -/

/-- `np.cumprod` starting from the accumulator `a`. -/
def scanMul (a : ℚ) : List ℚ → List ℚ
  | [] => []
  | x :: xs => (a * x) :: scanMul (a * x) xs

/-- `np.cumprod`: the running products of the list. -/
def cumprod (xs : List ℚ) : List ℚ := scanMul 1 xs

/-- `np.maximum.accumulate` continuing from the accumulator `m`. -/
def scanMax (m : ℚ) : List ℚ → List ℚ
  | [] => []
  | x :: xs => max m x :: scanMax (max m x) xs

/-- `np.maximum.accumulate`: the running maxima of the list. -/
def runningMax : List ℚ → List ℚ
  | [] => []
  | x :: xs => x :: scanMax x xs

/-- `1 - cum_returns / running_max`, elementwise. A zero running peak forces a
zero cumulative level (a zero factor keeps the product at zero from then on),
so the division there is `0/0 = NaN`, modelled as `none`; a nonzero quotient
with zero peak is unreachable. -/
def drawdowns (c : List ℚ) : List (Option ℚ) :=
  List.zipWith (fun x p => if p = 0 then none else some (1 - x / p))
    c (runningMax c)

/-- `np.nanmax`: the maximum of the non-NaN entries, NaN when none remain. -/
def nanmax (l : List (Option ℚ)) : Option ℚ :=
  match l.filterMap id with
  | [] => none
  | x :: xs => some (xs.foldl max x)

/-- `maximum_drawdown`: NaN for an all-missing series, otherwise the largest
drawdown along the cumulative path of `1 + r` with missing returns replaced
by `0` (`np.nan_to_num`). -/
def maximum_drawdown (rs : List Ret) : Option ℚ :=
  if rs.all fun o => o = none then none
  else nanmax (drawdowns (cumprod (rs.map fun o => 1 + o.getD 0)))

/-! ### Path lemmas for the drawdown proof -/

theorem scanMul_pos : ∀ {l : List ℚ} {a : ℚ}, 0 < a → (∀ y ∈ l, 0 < y) →
    ∀ c ∈ scanMul a l, 0 < c := by
  intro l
  induction l with
  | nil => intro a _ _ c hc; simp [scanMul] at hc
  | cons x xs ih =>
    intro a ha hl c hc
    have hx : 0 < x := hl x (by simp)
    rcases (by simpa [scanMul] using hc : c = a * x ∨ c ∈ scanMul (a * x) xs)
      with rfl | hc
    · exact mul_pos ha hx
    · exact ih (mul_pos ha hx) (fun y hy => hl y (by simp [hy])) c hc

theorem scanMax_zip_bounds :
    ∀ {l : List ℚ} {m : ℚ}, 0 < m → (∀ x ∈ l, 0 < x) →
    ∀ e ∈ List.zipWith (fun x p => if p = 0 then none else some (1 - x / p))
        l (scanMax m l),
      ∃ q, e = some q ∧ 0 ≤ q ∧ q ≤ 1 := by
  intro l
  induction l with
  | nil => intro m _ _ e he; simp [scanMax] at he
  | cons y ys ih =>
    intro m hm hl e he
    have hy : 0 < y := hl y (by simp)
    have hp : 0 < max m y := lt_max_of_lt_right hy
    rcases (by simpa [scanMax] using he :
        e = (if max m y = 0 then none else some (1 - y / max m y)) ∨
          e ∈ List.zipWith _ ys (scanMax (max m y) ys)) with rfl | he
    · refine ⟨1 - y / max m y, by simp [hp.ne'], ?_, ?_⟩
      · have : y / max m y ≤ 1 := (div_le_one hp).2 (le_max_right m y)
        linarith
      · have : 0 ≤ y / max m y := div_nonneg hy.le hp.le
        linarith
    · exact ih hp (fun x hx => hl x (by simp [hx])) e he

theorem drawdowns_bounds {c : List ℚ} (hc : ∀ x ∈ c, 0 < x) :
    ∀ e ∈ drawdowns c, ∃ q, e = some q ∧ 0 ≤ q ∧ q ≤ 1 := by
  cases c with
  | nil => intro e he; simp [drawdowns, runningMax] at he
  | cons x xs =>
    intro e he
    have hx : 0 < x := hc x (by simp)
    rcases (by simpa [drawdowns, runningMax] using he :
        e = (if x = 0 then none else some (1 - x / x)) ∨
          e ∈ List.zipWith _ xs (scanMax x xs)) with rfl | he
    · exact ⟨0, by simp [hx.ne', div_self hx.ne'], le_rfl, zero_le_one⟩
    · exact scanMax_zip_bounds hx (fun y hy => hc y (by simp [hy])) e he

theorem foldl_max_bounds {lo hi : ℚ} :
    ∀ {xs : List ℚ} {a : ℚ}, lo ≤ a → a ≤ hi → (∀ x ∈ xs, lo ≤ x ∧ x ≤ hi) →
      lo ≤ xs.foldl max a ∧ xs.foldl max a ≤ hi := by
  intro xs
  induction xs with
  | nil => intro a h1 h2 _; exact ⟨h1, h2⟩
  | cons y ys ih =>
    intro a h1 h2 hall
    have hy := hall y (by simp)
    exact ih (le_max_of_le_left h1) (max_le h2 hy.2)
      fun x hx => hall x (by simp [hx])

theorem nanmax_bounds {l : List (Option ℚ)} (hne : l ≠ [])
    (h : ∀ e ∈ l, ∃ q, e = some q ∧ 0 ≤ q ∧ q ≤ 1) :
    ∃ v, nanmax l = some v ∧ 0 ≤ v ∧ v ≤ 1 := by
  cases l with
  | nil => exact absurd rfl hne
  | cons e l =>
    obtain ⟨q, rfl, hq0, hq1⟩ := h e (by simp)
    refine ⟨(l.filterMap id).foldl max q, by simp [nanmax], ?_⟩
    refine foldl_max_bounds hq0 hq1 fun x hx => ?_
    obtain ⟨o, ho, hxo⟩ := List.mem_filterMap.1 hx
    obtain ⟨q', hq', h0, h1⟩ := h o (by simp [ho])
    rw [hq'] at hxo
    obtain rfl : q' = x := by simpa using hxo
    exact ⟨h0, h1⟩

theorem scanMax_of_one_le : ∀ {l : List ℚ} {a : ℚ}, 0 < a →
    (∀ y ∈ l, 1 ≤ y) → scanMax a (scanMul a l) = scanMul a l := by
  intro l
  induction l with
  | nil => intro a _ _; simp [scanMul, scanMax]
  | cons y ys ih =>
    intro a ha hl
    have hy : 1 ≤ y := hl y (by simp)
    have hay : a ≤ a * y := le_mul_of_one_le_right ha.le hy
    simp only [scanMul, scanMax, max_eq_right hay]
    rw [ih (ha.trans_le hay) fun z hz => hl z (by simp [hz])]

theorem runningMax_cumprod {l : List ℚ} (hl : ∀ y ∈ l, 1 ≤ y) :
    runningMax (cumprod l) = cumprod l := by
  cases l with
  | nil => simp [cumprod, scanMul, runningMax]
  | cons y ys =>
    have hy : (0 : ℚ) < y := lt_of_lt_of_le one_pos (hl y (by simp))
    simp only [cumprod, scanMul, one_mul, runningMax]
    rw [show scanMul y ys = scanMul y ys from rfl,
      scanMax_of_one_le hy fun z hz => hl z (by simp [hz])]

theorem nanmax_all_zero {l : List (Option ℚ)} (hne : l ≠ [])
    (h : ∀ e ∈ l, e = some 0) : nanmax l = some 0 := by
  cases l with
  | nil => exact absurd rfl hne
  | cons e l =>
    obtain rfl := h e (by simp)
    have hb := @foldl_max_bounds 0 0 (l.filterMap id) 0 le_rfl le_rfl
      fun x hx => by
        obtain ⟨o, ho, hxo⟩ := List.mem_filterMap.1 hx
        obtain rfl := h o (by simp [ho])
        obtain rfl : (0 : ℚ) = x := by simpa using hxo
        exact ⟨le_rfl, le_rfl⟩
    have : (l.filterMap id).foldl max 0 = 0 := le_antisymm hb.2 hb.1
    simp [nanmax, this]

/-- C2, the statement the code violates, at a concrete input: the returns
`[100%, -200%]` are not all missing, yet the maximum drawdown is `2`, outside
`[0, 1]` (the cumulative level goes negative, which the `1 - level/peak`
formula does not anticipate). -/
theorem maximum_drawdown_range_counterexample :
    maximum_drawdown [some 1, some (-2)] = some 2 ∧ ¬ ((2 : ℚ) ≤ 1) := by
  norm_num [maximum_drawdown, drawdowns, cumprod, scanMul, runningMax,
    scanMax, nanmax, max_def, List.filterMap_cons, List.filterMap_nil]
  exact fun h => by simp at h

/-- C2 (amended): for a series that is not all-missing and whose non-missing
returns all exceed `-1` (no single period loses 100% or more),
`maximum_drawdown` returns a value in `[0, 1]`, and that value is `0`
whenever every non-missing return is nonnegative (missing values enter the
cumulative path as `0%` only). -/
theorem maximum_drawdown_range (rs : List Ret)
    (hne : ¬ rs.all fun o => o = none)
    (hgt : ∀ x ∈ dropNan rs, -1 < x) :
    ∃ v, maximum_drawdown rs = some v ∧ 0 ≤ v ∧ v ≤ 1 ∧
      ((∀ x ∈ dropNan rs, 0 ≤ x) → v = 0) := by
  have hrs : rs ≠ [] := by rintro rfl; simp at hne
  have hmem : ∀ o ∈ rs, ∀ x, o = some x → -1 < x := by
    intro o ho x hx
    exact hgt x (List.mem_filterMap.2 ⟨o, ho, by simp [hx]⟩)
  have hfac : ∀ y ∈ rs.map fun o => 1 + o.getD 0, 0 < y := by
    intro y hy
    obtain ⟨o, ho, rfl⟩ := List.mem_map.1 hy
    cases o with
    | none => simp
    | some x => have := hmem _ ho x rfl; simp only [Option.getD_some]; linarith
  have hcpos : ∀ x ∈ cumprod (rs.map fun o => 1 + o.getD 0), 0 < x :=
    scanMul_pos one_pos hfac
  have hdne : drawdowns (cumprod (rs.map fun o => 1 + o.getD 0)) ≠ [] := by
    cases rs with
    | nil => exact absurd rfl hrs
    | cons o os => simp [drawdowns, cumprod, scanMul, runningMax]
  obtain ⟨v, hv, hv0, hv1⟩ := nanmax_bounds hdne (drawdowns_bounds hcpos)
  have hmd : maximum_drawdown rs = some v := by
    rw [maximum_drawdown, if_neg hne]; exact hv
  refine ⟨v, hmd, hv0, hv1, fun h0 => ?_⟩
  have hone : ∀ y ∈ rs.map fun o => 1 + o.getD 0, 1 ≤ y := by
    intro y hy
    obtain ⟨o, ho, rfl⟩ := List.mem_map.1 hy
    cases o with
    | none => simp
    | some x =>
      have : 0 ≤ x := h0 x (List.mem_filterMap.2 ⟨some x, ho, by simp⟩)
      simp only [Option.getD_some]; linarith
  have hdz : nanmax (drawdowns (cumprod (rs.map fun o => 1 + o.getD 0)))
      = some 0 := by
    refine nanmax_all_zero hdne ?_
    intro e he
    rw [drawdowns, runningMax_cumprod hone, List.zipWith_same] at he
    obtain ⟨x, hx, rfl⟩ := List.mem_map.1 he
    have hxp : 0 < x := hcpos x hx
    simp [hxp.ne', div_self hxp.ne']
  rw [hv] at hdz
  exact Option.some.inj hdz

/-- Witness for C2's amended theorem at the series `[10%, NaN, -5%]`. -/
theorem maximum_drawdown_range_witness :
    ∃ v, maximum_drawdown [some (1/10), none, some (-1/20)] = some v ∧
      0 ≤ v ∧ v ≤ 1 ∧
      ((∀ x ∈ dropNan [some (1/10), none, some (-1/20)], 0 ≤ x) → v = 0) :=
  maximum_drawdown_range [some (1/10), none, some (-1/20)]
    (by simp) (by norm_num [dropNan, List.filterMap_cons, List.filterMap_nil])

/-! ### annualized_return (src/Formeln.py lines 15-36) -/

/-- `np.prod(1 + returns)` over the non-missing returns. -/
def cumReturn (rs : List Ret) : ℚ :=
  ((dropNan rs).map fun r => 1 + r).prod

/-- `annualized_return`: NaN on an empty usable sample, otherwise
`cum_return ** (12 / n) - 1` with `n` the count of non-missing points.
A negative cumulative product under a non-integral exponent `12 / n` (that is,
when `n` does not divide `12`) is NaN in numpy floating point, modelled as
`none`; when `n` divides `12` the float exponent is an exact integer and the
power is the ordinary integer power, which `Real.rpow` also gives. -/
noncomputable def annualized_return (rs : List Ret) : Option ℝ :=
  if dropNan rs = [] then none
  else if cumReturn rs < 0 ∧ ¬ (dropNan rs).length ∣ 12 then none
  else some ((cumReturn rs : ℝ) ^ ((12 : ℝ) / ((dropNan rs).length : ℝ)) - 1)

theorem dropNan_replicate (n : ℕ) (r : ℚ) :
    dropNan (List.replicate n (some r)) = List.replicate n r := by
  induction n with
  | zero => rfl
  | succ n ih =>
    simp only [List.replicate_succ, dropNan, List.filterMap_cons] at *
    simpa using ih

/-- C7: compounding a single constant monthly return `r` over 12 months
yields the annualized return `(1+r)^12 - 1` exactly (the annualization
exponent `12/n` is `1` there). -/
theorem annualized_return_roundtrip (r : ℚ) :
    annualized_return (List.replicate 12 (some r)) =
      some ((1 + (r : ℝ)) ^ (12 : ℕ) - 1) := by
  have hd : dropNan (List.replicate 12 (some r)) = List.replicate 12 r :=
    dropNan_replicate 12 r
  rw [annualized_return, cumReturn, hd, List.map_replicate,
    List.prod_replicate, List.length_replicate]
  rw [if_neg (by simp), if_neg (by simp)]
  have h1 : ((12 : ℝ) / ((12 : ℕ) : ℝ)) = 1 := by norm_num
  rw [h1, Real.rpow_one]
  congr 1
  push_cast
  ring

/-! ### volatility (src/Formeln.py lines 39-50) -/

/-- `np.nanvar(returns, ddof=1)`: sample variance of the non-missing values;
NaN when fewer than two remain (degrees of freedom <= 0 give numpy 0/0). -/
def nanvar (rs : List Ret) : Option ℚ :=
  if (dropNan rs).length ≤ 1 then none else some (sampleVar (dropNan rs))

/-- `np.nanstd(returns, ddof=1)`: the square root of `nanvar`. -/
noncomputable def nanstd (rs : List Ret) : Option ℝ :=
  (nanvar rs).map fun v => Real.sqrt (v : ℝ)

/-- `volatility`: `np.nanstd(returns, ddof=1) * np.sqrt(12)`. -/
noncomputable def volatility (rs : List Ret) : Option ℝ :=
  (nanstd rs).map fun s => s * Real.sqrt 12

/-! ### sharpe_ratio (src/Formeln.py lines 81-110) -/

/-- The risk-free input of `sharpe_ratio`: a monthly scalar, or a series
aligned with the returns. -/
inductive RiskFree where
  | scalar (c : ℚ)
  | series (l : List Ret)

/-- Elementwise difference of two aligned series; NaN propagates through the
subtraction exactly when either operand is NaN. -/
def subSeries (rs bs : List Ret) : List Ret :=
  List.zipWith (fun a b =>
    match a, b with
    | some x, some y => some (x - y)
    | _, _ => none) rs bs

/-- The volatility `sharpe_ratio` divides by: of the excess-return series for
a series risk-free rate, of the raw returns for a scalar one. -/
noncomputable def sharpeVol (rs : List Ret) : RiskFree → Option ℝ
  | .scalar _ => volatility rs
  | .series l => volatility (subSeries rs l)

/-- The annualized excess return `sharpe_ratio` divides: annualize then
subtract for a scalar risk-free rate, subtract pointwise then annualize for a
series. -/
noncomputable def sharpeNum (rs : List Ret) : RiskFree → Option ℝ
  | .scalar c => (annualized_return rs).map fun a => a - (c : ℝ)
  | .series l => annualized_return (subSeries rs l)

/-- `sharpe_ratio`: NaN when the volatility is NaN or exactly zero, otherwise
the annualized excess return over the volatility (a NaN numerator propagates,
as in floating point). -/
noncomputable def sharpe_ratio (rs : List Ret) (rf : RiskFree) : Option ℝ :=
  (sharpeVol rs rf).bind fun v =>
    if v = 0 then none else (sharpeNum rs rf).map fun a => a / v

theorem sampleVar_const {l : List ℚ} (hne : l ≠ [])
    (hconst : ∀ x ∈ l, ∀ y ∈ l, x = y) : sampleVar l = 0 := by
  obtain ⟨a, l', rfl⟩ := List.exists_cons_of_ne_nil hne
  have hx : ∀ x ∈ a :: l', x = a := fun x hx => hconst x hx a (by simp)
  have hn : (((a :: l').length : ℚ)) ≠ 0 := Nat.cast_ne_zero.2 (by simp)
  have hmean : mean (a :: l') = a := by
    rw [mean, List.sum_eq_card_nsmul _ a hx, nsmul_eq_mul,
      mul_div_cancel_left₀ _ hn]
  rw [sampleVar]
  have hzero : ((a :: l').map fun x => (x - mean (a :: l')) ^ 2).sum = 0 :=
    List.sum_eq_zero fun x hx' => by
      obtain ⟨y, hy, rfl⟩ := List.mem_map.1 hx'
      rw [hmean, hx y hy]; ring
  rw [hzero, zero_div]

/-- C3: a return series with at least two non-missing points, all equal, has
volatility exactly `0`, and its Sharpe ratio against a scalar risk-free rate
is the undefined marker (no division happens); in general, `sharpe_ratio` is
undefined whenever the volatility it divides by is zero or undefined. -/
theorem volatility_zero_sharpe_undefined (rs : List Ret) (c : ℚ)
    (h2 : 2 ≤ (dropNan rs).length)
    (hconst : ∀ x ∈ dropNan rs, ∀ y ∈ dropNan rs, x = y) :
    volatility rs = some 0 ∧
    sharpe_ratio rs (RiskFree.scalar c) = none ∧
    ∀ (rs' : List Ret) (rf : RiskFree),
      sharpeVol rs' rf = none ∨ sharpeVol rs' rf = some 0 →
      sharpe_ratio rs' rf = none := by
  have hvar : nanvar rs = some 0 := by
    rw [nanvar, if_neg (by omega)]
    exact congrArg some
      (sampleVar_const (List.length_pos.1 (by omega)) hconst)
  have hvol : volatility rs = some 0 := by
    rw [volatility, nanstd, hvar]
    simp
  refine ⟨hvol, ?_, ?_⟩
  · have hsv : sharpeVol rs (RiskFree.scalar c) = some 0 := hvol
    simp [sharpe_ratio, hsv]
  · intro rs' rf h
    rcases h with h | h <;> simp [sharpe_ratio, h]

/-- Witness for C3's theorem at the constant series `[1%, 1%]` with risk-free
rate `0`. -/
theorem volatility_zero_sharpe_undefined_witness :
    volatility [some (1/100), some (1/100)] = some 0 ∧
    sharpe_ratio [some (1/100), some (1/100)] (RiskFree.scalar 0) = none ∧
    ∀ (rs' : List Ret) (rf : RiskFree),
      sharpeVol rs' rf = none ∨ sharpeVol rs' rf = some 0 →
      sharpe_ratio rs' rf = none :=
  volatility_zero_sharpe_undefined [some (1/100), some (1/100)] 0
    (by norm_num [dropNan, List.filterMap_cons, List.filterMap_nil])
    (by norm_num [dropNan, List.filterMap_cons, List.filterMap_nil])

/-! ### tracking_error (src/Formeln.py lines 159-183) -/

/-- `np.std(l, ddof=1)` over a list with no missing values. -/
noncomputable def stdDev (l : List ℚ) : ℝ := Real.sqrt ((sampleVar l : ℝ))

/-- `tracking_error`: elementwise active returns `returns - benchmark_returns`
(NaN at any date where either side is missing), NaN entries removed, then the
sample standard deviation annualized by `sqrt 12`; NaN when at most one
usable active return remains. -/
noncomputable def tracking_error (rs bs : List Ret) : Option ℝ :=
  if (dropNan (subSeries rs bs)).length ≤ 1 then none
  else some (stdDev (dropNan (subSeries rs bs)) * Real.sqrt 12)

/-- The usable pairs of two aligned series: the dates at which both series
are non-missing, in order. -/
def validPairs (rs bs : List Ret) : List (ℚ × ℚ) :=
  (List.zipWith (fun a b =>
    match a, b with
    | some x, some y => some (x, y)
    | _, _ => none) rs bs).filterMap id

/-- Tracking error as the spec words it: pair the two series by date, drop
every date at which either series is missing, take fund minus benchmark over
the remaining pairs, and annualize the sample standard deviation (n-1) by
`sqrt 12`; undefined when at most one usable pair remains. -/
noncomputable def trackingErrorSpec (rs bs : List Ret) : Option ℝ :=
  if ((validPairs rs bs).map fun p => p.1 - p.2).length ≤ 1 then none
  else some (stdDev ((validPairs rs bs).map fun p => p.1 - p.2) * Real.sqrt 12)

theorem dropNan_subSeries_eq (rs : List Ret) : ∀ bs : List Ret,
    dropNan (subSeries rs bs) = (validPairs rs bs).map fun p => p.1 - p.2 := by
  induction rs with
  | nil => intro bs; rfl
  | cons a rs ih =>
    intro bs
    cases bs with
    | nil => rfl
    | cons b bs =>
      cases a with
      | none =>
        simpa [subSeries, validPairs, dropNan, List.filterMap_cons]
          using ih bs
      | some x =>
        cases b with
        | none =>
          simpa [subSeries, validPairs, dropNan, List.filterMap_cons]
            using ih bs
        | some y =>
          simpa [subSeries, validPairs, dropNan, List.filterMap_cons]
            using ih bs

/-- C4: `tracking_error` computes exactly what the spec describes — the
sample standard deviation (n-1 denominator) of the pairwise active returns
(dates where either series is missing excluded entirely) times `sqrt 12`,
undefined when at most one usable pair remains. -/
theorem tracking_error_matches_spec (rs bs : List Ret)
    (h : rs.length = bs.length) :
    tracking_error rs bs = trackingErrorSpec rs bs := by
  rw [tracking_error, trackingErrorSpec, dropNan_subSeries_eq]

/-- Witness for C4's theorem: fund missing at the second date, benchmark
present there. -/
theorem tracking_error_matches_spec_witness :
    tracking_error [some 1, none, some 2] [some 0, some 1, some 1] =
      trackingErrorSpec [some 1, none, some 2] [some 0, some 1, some 1] :=
  tracking_error_matches_spec [some 1, none, some 2]
    [some 0, some 1, some 1] rfl

/-! ### Symmetry of the tracking error (C10) -/

theorem subSeries_cons (a b : Ret) (rs bs : List Ret) :
    subSeries (a :: rs) (b :: bs) =
      (match a, b with
       | some x, some y => some (x - y)
       | _, _ => none) :: subSeries rs bs := rfl

theorem subSeries_neg (rs : List Ret) : ∀ bs : List Ret,
    subSeries rs bs = (subSeries bs rs).map (Option.map fun x => -x) := by
  induction rs with
  | nil => intro bs; cases bs <;> rfl
  | cons a rs ih =>
    intro bs
    cases bs with
    | nil => rfl
    | cons b bs =>
      rw [subSeries_cons, subSeries_cons, List.map_cons, ih bs]
      congr 1
      cases a <;> cases b <;> simp [neg_sub]

theorem dropNan_map_negOpt (l : List Ret) :
    dropNan (l.map (Option.map fun x => -x)) = (dropNan l).map fun x => -x := by
  rw [dropNan, dropNan, List.filterMap_map, List.map_filterMap]
  rfl

theorem sum_map_negQ (l : List ℚ) : (l.map fun x => -x).sum = -l.sum := by
  induction l with
  | nil => simp
  | cons a l ih => simp [ih]; ring

theorem mean_map_neg (l : List ℚ) : mean (l.map fun x => -x) = -mean l := by
  rw [mean, mean, sum_map_negQ, List.length_map, neg_div]

theorem sampleVar_map_neg (l : List ℚ) :
    sampleVar (l.map fun x => -x) = sampleVar l := by
  rw [sampleVar, sampleVar, mean_map_neg, List.length_map, List.map_map]
  congr 1
  refine congrArg List.sum (List.map_congr_left fun x _ => ?_)
  simp only [Function.comp_apply]
  ring

/-- C10: `tracking_error` is symmetric in its two arguments — negating every
active return leaves the sample standard deviation unchanged. -/
theorem tracking_error_symm (rs bs : List Ret) (h : rs.length = bs.length) :
    tracking_error rs bs = tracking_error bs rs := by
  have key : dropNan (subSeries rs bs) =
      (dropNan (subSeries bs rs)).map fun x => -x := by
    rw [subSeries_neg, dropNan_map_negOpt]
  rw [tracking_error, tracking_error, key, List.length_map]
  simp only [stdDev, sampleVar_map_neg]

/-- Witness for C10 at a concrete pair of equal-length series. -/
theorem tracking_error_symm_witness :
    tracking_error [some 1, none, some 0] [some 0, some 2, some 1] =
      tracking_error [some 0, some 2, some 1] [some 1, none, some 0] :=
  tracking_error_symm [some 1, none, some 0] [some 0, some 2, some 1] rfl

/-! ### beta (src/Formeln.py lines 186-217) -/

/-- `beta`: NaN with at most one usable pair, NaN when the benchmark sample
variance over the usable pairs is zero, otherwise sample covariance over
benchmark sample variance. -/
def beta (rs bs : List Ret) : Option ℚ :=
  if (validPairs rs bs).length ≤ 1 then none
  else if sampleVar ((validPairs rs bs).map Prod.snd) = 0 then none
  else some (sampleCov (validPairs rs bs) /
    sampleVar ((validPairs rs bs).map Prod.snd))

/-- C5: `beta` is undefined with at most one usable pair or a zero benchmark
sample variance, and otherwise is the sample covariance over the benchmark
sample variance. -/
theorem beta_edge_policy (rs bs : List Ret) :
    ((validPairs rs bs).length ≤ 1 → beta rs bs = none) ∧
    (sampleVar ((validPairs rs bs).map Prod.snd) = 0 → beta rs bs = none) ∧
    (1 < (validPairs rs bs).length →
      sampleVar ((validPairs rs bs).map Prod.snd) ≠ 0 →
      beta rs bs = some (sampleCov (validPairs rs bs) /
        sampleVar ((validPairs rs bs).map Prod.snd))) := by
  refine ⟨fun h => by simp [beta, h], fun h => ?_, fun h1 h2 => ?_⟩
  · by_cases hl : (validPairs rs bs).length ≤ 1 <;> simp [beta, hl, h]
  · rw [beta, if_neg (by omega), if_neg h2]

/-! ### r_squared (src/Formeln.py lines 220-245) -/

/-- `np.corrcoef(x, y)[0, 1]`: the sample covariance over the product of the
sample standard deviations. When either variance is zero, the covariance is
also zero (that variable's deviations all vanish), so numpy's division is
`0/0 = NaN`, modelled as `none`. -/
noncomputable def corrcoef (ps : List (ℚ × ℚ)) : Option ℝ :=
  if sampleVar (ps.map Prod.fst) = 0 ∨ sampleVar (ps.map Prod.snd) = 0 then
    none
  else some ((sampleCov ps : ℝ) /
    (Real.sqrt ((sampleVar (ps.map Prod.fst) : ℝ)) *
      Real.sqrt ((sampleVar (ps.map Prod.snd) : ℝ))))

/-- `r_squared`: NaN with at most one usable pair, otherwise the squared
Pearson correlation of the usable pairs. -/
noncomputable def r_squared (rs bs : List Ret) : Option ℝ :=
  if (validPairs rs bs).length ≤ 1 then none
  else (corrcoef (validPairs rs bs)).map fun c => c ^ 2

theorem two_mul_le_sq_sum {a b S A B : ℚ} (hA : 0 ≤ A) (hB : 0 ≤ B)
    (h : S ^ 2 ≤ A * B) : 2 * a * b * S ≤ a ^ 2 * B + b ^ 2 * A := by
  rcases eq_or_lt_of_le hA with hA0 | hA0
  · have hS : S = 0 := by nlinarith [sq_nonneg S]
    rw [hS]
    nlinarith [sq_nonneg a, sq_nonneg b]
  · nlinarith [sq_nonneg (a * S - b * A),
      mul_nonneg (sq_nonneg a) (sub_nonneg.2 h)]

theorem list_cauchy_schwarz (l : List (ℚ × ℚ)) :
    ((l.map fun p => p.1 * p.2).sum) ^ 2 ≤
      ((l.map fun p => p.1 ^ 2).sum) * ((l.map fun p => p.2 ^ 2).sum) := by
  induction l with
  | nil => simp
  | cons p t ih =>
    simp only [List.map_cons, List.sum_cons]
    have hA : 0 ≤ (t.map fun p => p.1 ^ 2).sum :=
      List.sum_nonneg fun x hx => by
        obtain ⟨q, -, rfl⟩ := List.mem_map.1 hx; positivity
    have hB : 0 ≤ (t.map fun p => p.2 ^ 2).sum :=
      List.sum_nonneg fun x hx => by
        obtain ⟨q, -, rfl⟩ := List.mem_map.1 hx; positivity
    have haux := two_mul_le_sq_sum (a := p.1) (b := p.2) hA hB ih
    nlinarith [ih, haux]

theorem sampleVar_nonneg {l : List ℚ} (h2 : 2 ≤ l.length) :
    0 ≤ sampleVar l := by
  apply div_nonneg
  · exact List.sum_nonneg fun x hx => by
      obtain ⟨y, -, rfl⟩ := List.mem_map.1 hx; positivity
  · have : (2 : ℚ) ≤ l.length := by exact_mod_cast h2
    linarith

theorem sampleCov_sq_le {ps : List (ℚ × ℚ)} (h2 : 2 ≤ ps.length) :
    sampleCov ps ^ 2 ≤
      sampleVar (ps.map Prod.fst) * sampleVar (ps.map Prod.snd) := by
  have hd : (0 : ℚ) < (ps.length : ℚ) - 1 := by
    have : (2 : ℚ) ≤ ps.length := by exact_mod_cast h2
    linarith
  have key := list_cauchy_schwarz (ps.map fun p =>
    (p.1 - mean (ps.map Prod.fst), p.2 - mean (ps.map Prod.snd)))
  simp only [List.map_map, Function.comp_def] at key
  rw [sampleCov, sampleVar, sampleVar, List.map_map, List.map_map,
    List.length_map, List.length_map]
  simp only [Function.comp_def] at key ⊢
  rw [div_pow, div_mul_div_comm, ← pow_two]
  exact (div_le_div_iff_of_pos_right (pow_pos hd 2)).2 key

/-- C6: `r_squared` is undefined when the benchmark slice over the usable
pairs has zero variance, and every defined value it returns lies in
`[0, 1]` (the squared Pearson correlation, bounded by Cauchy-Schwarz). -/
theorem r_squared_range (rs bs : List Ret) :
    (sampleVar ((validPairs rs bs).map Prod.snd) = 0 →
      r_squared rs bs = none) ∧
    ∀ v : ℝ, r_squared rs bs = some v → 0 ≤ v ∧ v ≤ 1 := by
  constructor
  · intro h
    by_cases hl : (validPairs rs bs).length ≤ 1
    · simp [r_squared, hl]
    · simp [r_squared, hl, corrcoef, h]
  · intro v hv
    rw [r_squared] at hv
    by_cases hl : (validPairs rs bs).length ≤ 1
    · simp [hl] at hv
    · rw [if_neg hl] at hv
      by_cases hz : sampleVar ((validPairs rs bs).map Prod.fst) = 0 ∨
          sampleVar ((validPairs rs bs).map Prod.snd) = 0
      · rw [corrcoef, if_pos hz] at hv
        simp at hv
      · push_neg at hz
        obtain ⟨hx0, hy0⟩ := hz
        have h2 : 2 ≤ (validPairs rs bs).length := by omega
        have h2x : 2 ≤ ((validPairs rs bs).map Prod.fst).length := by
          simpa using h2
        have h2y : 2 ≤ ((validPairs rs bs).map Prod.snd).length := by
          simpa using h2
        have hxnn := sampleVar_nonneg h2x
        have hynn := sampleVar_nonneg h2y
        have hxpos : (0 : ℝ) < (sampleVar ((validPairs rs bs).map Prod.fst) : ℝ) := by
          exact_mod_cast lt_of_le_of_ne hxnn (Ne.symm hx0)
        have hypos : (0 : ℝ) < (sampleVar ((validPairs rs bs).map Prod.snd) : ℝ) := by
          exact_mod_cast lt_of_le_of_ne hynn (Ne.symm hy0)
        rw [corrcoef, if_neg (by push_neg; exact ⟨hx0, hy0⟩)] at hv
        rw [Option.map_some'] at hv
        obtain rfl : ((sampleCov (validPairs rs bs) : ℝ) /
            (Real.sqrt ((sampleVar ((validPairs rs bs).map Prod.fst) : ℝ)) *
              Real.sqrt ((sampleVar ((validPairs rs bs).map Prod.snd) : ℝ)))) ^ 2
            = v := Option.some.inj hv
        refine ⟨sq_nonneg _, ?_⟩
        rw [div_pow, mul_pow, Real.sq_sqrt hxpos.le, Real.sq_sqrt hypos.le]
        rw [div_le_one (by positivity)]
        exact_mod_cast sampleCov_sq_le h2

/-! ### C8: no infinities where a denominator is exactly zero -/

/-- C8: at every zero-denominator site the primitive returns a finite
sentinel or the undefined marker, never an infinite value: Sharpe with zero
volatility is undefined, Omega with a zero loss sum is the finite sentinel
`1000` (or undefined on an empty sample), Beta with zero benchmark variance
is undefined, and the squared correlation with a zero standard deviation is
undefined. -/
theorem no_infinities_at_zero_denominators (rs bs : List Ret) (rf : RiskFree)
    (t : ℚ) :
    (sharpeVol rs rf = some 0 → sharpe_ratio rs rf = none) ∧
    (omegaLosses rs t = 0 →
      omega_ratio rs t = none ∨ omega_ratio rs t = some 1000) ∧
    (sampleVar ((validPairs rs bs).map Prod.snd) = 0 → beta rs bs = none) ∧
    ((sampleVar ((validPairs rs bs).map Prod.fst) = 0 ∨
      sampleVar ((validPairs rs bs).map Prod.snd) = 0) →
      r_squared rs bs = none) := by
  refine ⟨fun h => by simp [sharpe_ratio, h], fun h => ?_, fun h => ?_,
    fun h => ?_⟩
  · by_cases hne : dropNan rs = []
    · exact Or.inl (by simp [omega_ratio, hne])
    · exact Or.inr (by simp [omega_ratio, hne, h])
  · by_cases hl : (validPairs rs bs).length ≤ 1 <;> simp [beta, hl, h]
  · by_cases hl : (validPairs rs bs).length ≤ 1
    · simp [r_squared, hl]
    · rw [r_squared, if_neg hl, corrcoef, if_pos h]
      rfl

end Formeln
